import Mathlib

/-
A shallow embedding of the mudb embedded document store (src/src/lib.rs)
and proofs about its operations.  File I/O is modelled by keeping the log
file's contents (a list of records) inside the store state; JSON
serialization is assumed to round-trip, as the spec treats the encoding
as a plug-in concern.
-/

namespace MudbSpec

/-- Identity keys: a tagged union of a text form and a signed integer form
(`IndexKey` in src/src/lib.rs). -/
inductive IndexKey : Type where
  | Str (s : String)
  | Num (n : Int)
deriving DecidableEq, Repr

/-- Strict comparison of identity keys, following the derived `Ord` of the
Rust enum: the `Str` variant sorts before `Num`, inner values by their
natural order. -/
def IndexKey.ltb : IndexKey → IndexKey → Bool
  | .Str a, .Str b => decide (a < b)
  | .Str _, .Num _ => true
  | .Num _, .Str _ => false
  | .Num a, .Num b => decide (a < b)

/-- Versioned keys: an identity plus a monotonic revision counter
(`VersionedKey` in src/src/lib.rs; `ver` is a `u64`, modelled as `Nat`
since no claim exercises overflow). -/
structure VersionedKey : Type where
  id : IndexKey
  ver : Nat
deriving DecidableEq, Repr

/-- `VersionedKey::new(id)` starts at version 0. -/
def VersionedKey.new (id : IndexKey) : VersionedKey := ⟨id, 0⟩

/-- `VersionedKey::incr` keeps the identity and bumps the version. -/
def VersionedKey.incr (k : VersionedKey) : VersionedKey := ⟨k.id, k.ver + 1⟩

/-- Strict lexicographic comparison of versioned keys (identity first, then
version), following the derived `Ord` of the Rust struct. -/
def VersionedKey.ltb (a b : VersionedKey) : Bool :=
  IndexKey.ltb a.id b.id || (decide (a.id = b.id) && decide (a.ver < b.ver))

/-- Non-strict comparison of versioned keys, used to model the range scan
`data.range(VersionedKey::new(id)..)` in `Mudb::get`. -/
def VersionedKey.leb (a b : VersionedKey) : Bool :=
  VersionedKey.ltb a b || decide (a = b)

/-- Record flags (`Flag` in src/src/lib.rs). -/
inductive Flag : Type where
  | Binary
  | Deleted
deriving DecidableEq, Repr

/-- The record envelope `Doc<T>`: versioned key, flag set, optional
payload.  The Rust `HashSet<Flag>` is modelled as a duplicate-free list. -/
structure Doc (T : Type) : Type where
  key : VersionedKey
  flags : List Flag
  obj : Option T
deriving DecidableEq, Repr

deriving instance DecidableEq for Except

/-- `Doc::new` yields an empty flag set. -/
def Doc.new (key : VersionedKey) (obj : Option T) : Doc T := ⟨key, [], obj⟩

/-- `HashSet::insert`: add a flag unless already present. -/
def flagInsert (f : Flag) (s : List Flag) : List Flag :=
  if f ∈ s then s else s ++ [f]

/-- The in-memory dataset: the `OrdMap<VersionedKey, Doc<T>>`, modelled as
an association list that store operations keep sorted by key. -/
abbrev Dataset (T : Type) : Type := List (VersionedKey × Doc T)

/-- `OrdMap::get`: the value stored under an exact key. -/
def omLookup (k : VersionedKey) : Dataset T → Option (Doc T)
  | [] => none
  | (k', v) :: rest => if k = k' then some v else omLookup k rest

/-- `OrdMap::remove`, the remaining map: drop the entry under the exact
key, if any. -/
def omRemove (k : VersionedKey) : Dataset T → Dataset T
  | [] => []
  | (k', v) :: rest => if k = k' then rest else (k', v) :: omRemove k rest

/-- `OrdMap::insert`: store a value under a key, replacing any existing
entry, keeping the list sorted. -/
def omInsert (k : VersionedKey) (v : Doc T) : Dataset T → Dataset T
  | [] => [(k, v)]
  | (k', v') :: rest =>
    if VersionedKey.ltb k k' then (k, v) :: (k', v') :: rest
    else if k = k' then (k, v) :: rest
    else (k', v') :: omInsert k v rest

/-- Items produced by `OrdMap::diff` (`im::ordmap::DiffItem`). -/
inductive DiffItem (T : Type) : Type where
  | Add (k : VersionedKey) (d : Doc T)
  | Remove (k : VersionedKey) (d : Doc T)
  | Update (old new : VersionedKey × Doc T)

/-- Fuelled worker for `OrdMap::diff`: merge two sorted maps, emitting an
item for every difference.  The fuel is an artifact of the embedding; with
fuel at least the sum of the lengths the recursion never runs out. -/
def omDiffF [DecidableEq T] : Nat → Dataset T → Dataset T → List (DiffItem T)
  | 0, _, _ => []
  | _ + 1, [], [] => []
  | n + 1, [], y :: ys => .Add y.1 y.2 :: omDiffF n [] ys
  | n + 1, x :: xs, [] => .Remove x.1 x.2 :: omDiffF n xs []
  | n + 1, x :: xs, y :: ys =>
    if VersionedKey.ltb x.1 y.1 then .Remove x.1 x.2 :: omDiffF n xs (y :: ys)
    else if VersionedKey.ltb y.1 x.1 then .Add y.1 y.2 :: omDiffF n (x :: xs) ys
    else if x.2 = y.2 then omDiffF n xs ys
    else .Update (x.1, x.2) (y.1, y.2) :: omDiffF n xs ys

/-- `OrdMap::diff`: the ordered differences between two datasets. -/
def omDiff [DecidableEq T] (a b : Dataset T) : List (DiffItem T) :=
  omDiffF (a.length + b.length) a b

/-- `HashSet<IndexKey>::insert`. -/
def setInsert (x : IndexKey) (s : List IndexKey) : List IndexKey :=
  if x ∈ s then s else s ++ [x]

/-- `HashSet<IndexKey>::remove`. -/
def setRemove (x : IndexKey) (s : List IndexKey) : List IndexKey :=
  s.filter (fun y => y ≠ x)

/-- The inverted index of a view: `BTreeMap<IndexKey, HashSet<IndexKey>>`,
modelled as an association list from term to identity set. -/
abbrev Inverted : Type := List (IndexKey × List IndexKey)

/-- `inner.get(k)` on the inverted index. -/
def vsGet : Inverted → IndexKey → Option (List IndexKey)
  | [], _ => none
  | (t, s) :: rest, k => if k = t then some s else vsGet rest k

/-- `inner.entry(t).or_insert(HashSet::new()).insert(i)`: add identity `i`
to the set stored under term `t`, creating the entry if missing. -/
def vsEntryInsert : Inverted → IndexKey → IndexKey → Inverted
  | [], t, i => [(t, [i])]
  | (t', s) :: rest, t, i =>
    if t = t' then (t', setInsert i s) :: rest
    else (t', s) :: vsEntryInsert rest t i

/-- `if let Some(values) = inner.get_mut(&t) { values.remove(&i) }`. -/
def vsRemoveFrom : Inverted → IndexKey → IndexKey → Inverted
  | [], _, _ => []
  | (t', s) :: rest, t, i =>
    if t = t' then (t', setRemove i s) :: rest
    else (t', s) :: vsRemoveFrom rest t i

/-- A secondary index (`View<T>` in src/src/lib.rs).  The boxed trait
object `Indexer<T>` is modelled as a function field. -/
structure View (T : Type) : Type where
  snapshot : Option (Dataset T)
  inner : Inverted
  indexer : T → List IndexKey

/-- `View::new`. -/
def View.new (indexer : T → List IndexKey) : View T :=
  ⟨none, [], indexer⟩

/-- The `DiffItem::Add` branch of `View::apply_change`. -/
def View.applyAdd (v : View T) (k : VersionedKey) (d : Doc T) : View T :=
  match d.obj with
  | some obj =>
      { v with inner := (v.indexer obj).foldl (fun m t => vsEntryInsert m t k.id) v.inner }
  | none => v

/-- The `DiffItem::Remove` branch of `View::apply_change`. -/
def View.applyRemove (v : View T) (k : VersionedKey) (d : Doc T) : View T :=
  match d.obj with
  | some obj =>
      { v with inner := (v.indexer obj).foldl (fun m t => vsRemoveFrom m t k.id) v.inner }
  | none => v

/-- `View::apply_change`: the `Update` case replays a removal of the old
entry then an addition of the new one, as in the source. -/
def View.applyChange (v : View T) : DiffItem T → View T
  | .Add k d => v.applyAdd k d
  | .Remove k d => v.applyRemove k d
  | .Update old new => ((v.applyRemove old.1 old.2).applyAdd new.1 new.2)

/-- `View::build`: diff the previous snapshot (empty when absent) against
the current dataset, apply every change, then store
`Some(snapshot.clone().clone())` — note the source stores the previous
snapshot here, not `data`. -/
def View.build [DecidableEq T] (v : View T) (data : Dataset T) : View T :=
  let snapshot := v.snapshot.getD []
  let v' := (omDiff snapshot data).foldl (fun acc δ => acc.applyChange δ) v
  { v' with snapshot := some snapshot }

/-- `View::query`: the identities currently indexed under a term. -/
def View.query (v : View T) (k : IndexKey) : List IndexKey :=
  (vsGet v.inner k).getD []

/-- The store (`Mudb<T>` in src/src/lib.rs).  The `log` field models the
contents of the append-only log file; directory and file handles are out
of the model. -/
structure Mudb (T : Type) : Type where
  data : Dataset T
  changed : List (Doc T)
  views : List (String × View T)
  modified : Bool
  log : List (Doc T)

/-- Replaying the log on open: insert each record into the map keyed by
the record's own `VersionedKey`, later records superseding earlier. -/
def replay (log : List (Doc T)) : Dataset T :=
  log.foldl (fun m d => omInsert d.key d m) []

/-- `Mudb::open` over a log file with the given contents: replay all
records into `data`; empty change buffer, no views, not modified. -/
def Mudb.openLog (log : List (Doc T)) : Mudb T :=
  ⟨replay log, [], [], false, log⟩

/-- The error message of the stale-version failure in `Mudb::insert`. -/
def staleMsg : String := "version key provided older than last stored"

/-- `Mudb::insert` with an explicit key (the `None` case of the source
synthesizes a fresh ULID string identity at version 0 and proceeds
identically).  The source removes the entry at the exact key first, so on
the error path the removal has already happened. -/
def Mudb.insert (db : Mudb T) (key : VersionedKey) (obj : T) :
    Mudb T × Except String VersionedKey :=
  let found := omLookup key db.data
  let rest := omRemove key db.data
  let doc0 := found.getD (Doc.new key none)
  if key.ver < doc0.key.ver then
    ({ db with data := rest }, .error staleMsg)
  else
    let newKey := doc0.key.incr
    let doc : Doc T := { doc0 with key := newKey, obj := some obj }
    ({ db with
        data := omInsert newKey doc rest
        changed := db.changed ++ [doc]
        modified := true }, .ok newKey)

/-- `Mudb::commit`: when the buffer is non-empty, append it to the log in
enqueue order, clear it and clear `modified`; always return the number of
queued records. -/
def Mudb.commit (db : Mudb T) : Mudb T × Nat :=
  let queued := db.changed.length
  if 0 < queued then
    ({ db with log := db.log ++ db.changed, changed := [], modified := false }, queued)
  else
    (db, queued)

/-- `Mudb::exact`: the doc at a precise versioned key. -/
def Mudb.exact (db : Mudb T) (key : VersionedKey) : Option (Doc T) :=
  omLookup key db.data

/-- `Mudb::get`: range-scan from `(id, 0)`, keep exact identity matches,
take the last (highest key). -/
def Mudb.get (db : Mudb T) (id : IndexKey) : Option (Doc T) :=
  (((db.data.filter (fun p => VersionedKey.leb (VersionedKey.new id) p.1)).filter
      (fun p => decide (p.1.id = id))).getLast?).map (fun p => p.2)

/-- `Mudb::update`: look up the exact key; when present with a payload,
apply `op` and insert under the doc's own key, then push the old doc onto
the change buffer as well. -/
def Mudb.update (db : Mudb T) (key : VersionedKey) (f : T → T) :
    Mudb T × Option (Except String VersionedKey) :=
  let doc := (db.exact key).getD (Doc.new (VersionedKey.new key.id) none)
  match doc.obj with
  | some obj =>
      let r := db.insert doc.key (f obj)
      ({ r.1 with changed := r.1.changed ++ [doc] }, some r.2)
  | none => (db, none)

/-- `Mudb::delete`: remove the entry at the exact key; when found, store a
tombstone (incremented embedded key, no payload, `Deleted` flag) back
under the unchanged map key and return the prior payload.  Nothing is
pushed onto the change buffer. -/
def Mudb.delete (db : Mudb T) (id : VersionedKey) : Mudb T × Option T :=
  match omLookup id db.data with
  | some doc =>
      let rest := omRemove id db.data
      let tomb : Doc T := { doc with
        key := doc.key.incr
        obj := none
        flags := flagInsert .Deleted doc.flags }
      ({ db with data := omInsert id tomb rest, modified := true }, doc.obj)
  | none => (db, none)

/-- `Mudb::compact`: when modified, rewrite the log to exactly the current
dataset in map iteration order, clear the buffer and the flag. -/
def Mudb.compact (db : Mudb T) : Mudb T :=
  if db.modified then
    { db with log := db.data.map (fun p => p.2), changed := [], modified := false }
  else db

/-- `BTreeMap::insert` on the views table: replace under an existing name,
otherwise add. -/
def vwInsert (name : String) (v : View T) : List (String × View T) → List (String × View T)
  | [] => [(name, v)]
  | (n, w) :: rest =>
    if name = n then (n, v) :: rest else (n, w) :: vwInsert name v rest

/-- `BTreeMap::get` on the views table. -/
def vwGet (name : String) : List (String × View T) → Option (View T)
  | [] => none
  | (n, w) :: rest => if name = n then some w else vwGet name rest

/-- `Mudb::add_view`. -/
def Mudb.addView (db : Mudb T) (name : String) (indexer : T → List IndexKey) : Mudb T :=
  { db with views := vwInsert name (View.new indexer) db.views }

/-- `Mudb::build_views`: build every registered view against the current
dataset. -/
def Mudb.buildViews [DecidableEq T] (db : Mudb T) : Mudb T :=
  { db with views := db.views.map (fun p => (p.1, p.2.build db.data)) }

/-- `Mudb::find_by_view`: resolve every identity the view returns through
`get` and keep the payloads. -/
def Mudb.findByView (db : Mudb T) (name : String) (k : IndexKey) : List T :=
  match vwGet name db.views with
  | some v => (((v.query k).filterMap (fun id => db.get id)).filterMap (fun d => d.obj))
  | none => []

/-- The filter algebra (`QueryOp` in src/src/lib.rs): leaves are arbitrary
user predicates (the `Query` trait objects), modelled as Boolean
functions. -/
inductive QueryOp (T : Type) : Type where
  | Id (f : T → Bool)
  | Not (q : QueryOp T)
  | And (l r : QueryOp T)
  | Or (l r : QueryOp T)

/-- `QueryOp::matches`. -/
def QueryOp.matches : QueryOp T → T → Bool
  | .Id f, x => f x
  | .Not q, x => !(q.matches x)
  | .And l r, x => l.matches x && r.matches x
  | .Or l r, x => l.matches x || r.matches x

/-- Instrumented evaluator mirroring the Rust `&&`/`||` control flow of
`QueryOp::matches`: the result together with the number of leaf-predicate
evaluations performed.  `And` consults `r` only when `l` came out true;
`Or` consults `r` only when `l` came out false. -/
def QueryOp.matchesCount : QueryOp T → T → Bool × Nat
  | .Id f, x => (f x, 1)
  | .Not q, x =>
      let r := q.matchesCount x
      (!r.1, r.2)
  | .And l r, x =>
      let a := l.matchesCount x
      if a.1 then
        let b := r.matchesCount x
        (b.1, a.2 + b.2)
      else (false, a.2)
  | .Or l r, x =>
      let a := l.matchesCount x
      if a.1 then (true, a.2)
      else
        let b := r.matchesCount x
        (b.1, a.2 + b.2)


/-- Sortedness of a dataset: strictly ascending map keys, the invariant of
`im::OrdMap` iteration. -/
abbrev SortedData (l : Dataset T) : Prop :=
  l.Pairwise (fun a b => VersionedKey.ltb a.1 b.1 = true)

theorem IndexKey.ltb_self (a : IndexKey) : a.ltb a = false := by
  cases a <;> simp [IndexKey.ltb]

theorem IndexKey.ltb_transitive {a b c : IndexKey} (h1 : a.ltb b = true)
    (h2 : b.ltb c = true) : a.ltb c = true := by
  cases a <;> cases b <;> cases c <;> simp_all [IndexKey.ltb] <;> exact lt_trans h1 h2

theorem IndexKey.eq_of_ltb_false {a b : IndexKey} (h1 : a.ltb b = false)
    (h2 : b.ltb a = false) : a = b := by
  cases a <;> cases b
  case Str.Str s1 s2 =>
    have hA : ¬ s1 < s2 := by
      simpa only [IndexKey.ltb, decide_eq_false_iff_not] using h1
    have hB : ¬ s2 < s1 := by
      simpa only [IndexKey.ltb, decide_eq_false_iff_not] using h2
    exact congrArg IndexKey.Str (le_antisymm (not_lt.mp hB) (not_lt.mp hA))
  case Str.Num => simp [IndexKey.ltb] at h1
  case Num.Str => simp [IndexKey.ltb] at h2
  case Num.Num n1 n2 =>
    have hA : ¬ n1 < n2 := by
      simpa only [IndexKey.ltb, decide_eq_false_iff_not] using h1
    have hB : ¬ n2 < n1 := by
      simpa only [IndexKey.ltb, decide_eq_false_iff_not] using h2
    exact congrArg IndexKey.Num (le_antisymm (not_lt.mp hB) (not_lt.mp hA))

theorem VersionedKey.ltb_iff {a b : VersionedKey} :
    a.ltb b = true ↔ (IndexKey.ltb a.id b.id = true ∨ (a.id = b.id ∧ a.ver < b.ver)) := by
  simp [VersionedKey.ltb]

theorem VersionedKey.ltb_irrefl (a : VersionedKey) : a.ltb a = false := by
  simp [VersionedKey.ltb, IndexKey.ltb_self]

theorem VersionedKey.ltb_trans {a b c : VersionedKey} (h1 : a.ltb b = true)
    (h2 : b.ltb c = true) : a.ltb c = true := by
  rw [VersionedKey.ltb_iff] at h1 h2 ⊢
  rcases h1 with h1 | ⟨h1, h1v⟩
  · rcases h2 with h2 | ⟨h2, _⟩
    · exact Or.inl (IndexKey.ltb_transitive h1 h2)
    · exact Or.inl (h2 ▸ h1)
  · rcases h2 with h2 | ⟨h2, h2v⟩
    · exact Or.inl (h1 ▸ h2)
    · exact Or.inr ⟨h1.trans h2, lt_trans h1v h2v⟩

theorem VersionedKey.ltb_asymm {a b : VersionedKey} (h : a.ltb b = true) :
    b.ltb a = false := by
  cases hb : b.ltb a
  · rfl
  · have := VersionedKey.ltb_trans h hb
    rw [VersionedKey.ltb_irrefl] at this
    exact absurd this (by simp)

theorem VersionedKey.eq_of_not_ltb {a b : VersionedKey} (h1 : a.ltb b = false)
    (h2 : b.ltb a = false) : a = b := by
  have hab : ¬ (IndexKey.ltb a.id b.id = true ∨ (a.id = b.id ∧ a.ver < b.ver)) :=
    fun h => Bool.eq_false_iff.mp h1 (VersionedKey.ltb_iff.mpr h)
  have hba : ¬ (IndexKey.ltb b.id a.id = true ∨ (b.id = a.id ∧ b.ver < a.ver)) :=
    fun h => Bool.eq_false_iff.mp h2 (VersionedKey.ltb_iff.mpr h)
  push_neg at hab hba
  have hidab : a.id.ltb b.id = false := by
    cases h : a.id.ltb b.id
    · rfl
    · exact absurd h hab.1
  have hidba : b.id.ltb a.id = false := by
    cases h : b.id.ltb a.id
    · rfl
    · exact absurd h hba.1
  have hid : a.id = b.id := IndexKey.eq_of_ltb_false hidab hidba
  have hv : a.ver = b.ver := le_antisymm (hba.2 hid.symm) (hab.2 hid)
  rcases a with ⟨ai, av⟩
  rcases b with ⟨bi, bv⟩
  simp_all

theorem VersionedKey.ltb_or_of_ne {a b : VersionedKey} (h : a ≠ b) :
    a.ltb b = true ∨ b.ltb a = true := by
  cases h1 : a.ltb b
  · cases h2 : b.ltb a
    · exact absurd (VersionedKey.eq_of_not_ltb h1 h2) h
    · exact Or.inr rfl
  · exact Or.inl rfl

theorem VersionedKey.ltb_eq_false_of_le {a b : VersionedKey} (hid : a.id = b.id)
    (h : b.ver ≤ a.ver) : a.ltb b = false := by
  rw [Bool.eq_false_iff]
  intro hlt
  rw [VersionedKey.ltb_iff] at hlt
  rcases hlt with hlt | ⟨_, hlt⟩
  · rw [hid, IndexKey.ltb_self] at hlt
    exact absurd hlt (by simp)
  · exact absurd hlt (not_lt.mpr h)

theorem VersionedKey.leb_of_id_eq {id : IndexKey} {k : VersionedKey} (h : k.id = id) :
    VersionedKey.leb (VersionedKey.new id) k = true := by
  rcases k with ⟨i, v⟩
  cases h
  cases v <;> simp [VersionedKey.leb, VersionedKey.ltb, VersionedKey.new, IndexKey.ltb_self]

theorem omRemove_sublist (k : VersionedKey) (l : Dataset T) :
    (omRemove k l).Sublist l := by
  induction l with
  | nil => simp [omRemove]
  | cons x rest ih =>
    rcases x with ⟨k', v⟩
    rw [omRemove]
    split
    · exact List.sublist_cons_self _ _
    · exact ih.cons₂ _

theorem mem_omRemove {k : VersionedKey} {l : Dataset T} {x} (h : x ∈ omRemove k l) :
    x ∈ l :=
  (omRemove_sublist k l).subset h

theorem sortedData_omRemove {k : VersionedKey} {l : Dataset T} (h : SortedData l) :
    SortedData (omRemove k l) :=
  h.sublist (omRemove_sublist k l)

theorem mem_omInsert {k : VersionedKey} {v : Doc T} {l : Dataset T} {x}
    (h : x ∈ omInsert k v l) : x = (k, v) ∨ x ∈ l := by
  induction l with
  | nil =>
    simp [omInsert] at h
    exact Or.inl h
  | cons y rest ih =>
    rcases y with ⟨k', v'⟩
    rw [omInsert] at h
    split at h
    · rcases List.mem_cons.mp h with h | h
      · exact Or.inl h
      · exact Or.inr h
    · split at h
      · rcases List.mem_cons.mp h with h | h
        · exact Or.inl h
        · exact Or.inr (List.mem_cons_of_mem _ h)
      · rcases List.mem_cons.mp h with h | h
        · exact Or.inr (List.mem_cons.mpr (Or.inl h))
        · rcases ih h with h | h
          · exact Or.inl h
          · exact Or.inr (List.mem_cons_of_mem _ h)

theorem omLookup_mem {k : VersionedKey} {l : Dataset T} {d : Doc T}
    (h : omLookup k l = some d) : (k, d) ∈ l := by
  induction l with
  | nil => simp [omLookup] at h
  | cons y rest ih =>
    rcases y with ⟨k', v'⟩
    rw [omLookup] at h
    split at h
    · rename_i heq
      cases h
      subst heq
      exact List.mem_cons_self _ _
    · exact List.mem_cons_of_mem _ (ih h)

theorem sortedData_omInsert (k : VersionedKey) (v : Doc T) {l : Dataset T}
    (h : SortedData l) : SortedData (omInsert k v l) := by
  induction l with
  | nil => simp [omInsert, SortedData]
  | cons y rest ih =>
    rcases y with ⟨k', v'⟩
    rw [omInsert]
    rcases h with _ | ⟨hrel, htail⟩
    split
    · rename_i hlt
      refine List.Pairwise.cons ?_ (List.Pairwise.cons hrel htail)
      intro b hb
      rcases List.mem_cons.mp hb with hb | hb
      · subst hb; exact hlt
      · exact VersionedKey.ltb_trans hlt (hrel b hb)
    · split
      · rename_i hne heq
        subst heq
        exact List.Pairwise.cons hrel htail
      · rename_i hnlt hne
        have hk'k : VersionedKey.ltb k' k = true := by
          rcases VersionedKey.ltb_or_of_ne hne with hc | hc
          · exact absurd hc hnlt
          · exact hc
        refine List.Pairwise.cons ?_ (ih htail)
        intro b hb
        rcases mem_omInsert hb with hb | hb
        · subst hb; exact hk'k
        · exact hrel b hb

theorem omInsert_append_of_gt {k : VersionedKey} {v : Doc T} {l : Dataset T}
    (h : ∀ q ∈ l, VersionedKey.ltb q.1 k = true) :
    omInsert k v l = l ++ [(k, v)] := by
  induction l with
  | nil => rfl
  | cons y rest ih =>
    rcases y with ⟨k', v'⟩
    have hk' : VersionedKey.ltb k' k = true := h _ (List.mem_cons_self _ _)
    have h1 : VersionedKey.ltb k k' = false := VersionedKey.ltb_asymm hk'
    have h2 : k ≠ k' := by
      intro hc
      subst hc
      rw [VersionedKey.ltb_irrefl] at hk'
      exact absurd hk' (by simp)
    rw [omInsert, h1, if_neg h2]
    simp only [Bool.false_eq_true, if_false, List.cons_append, List.cons.injEq, true_and]
    exact ih (fun q hq => h q (List.mem_cons_of_mem _ hq))

theorem foldl_omInsert_of_sorted :
    ∀ (l acc : Dataset T), SortedData (acc ++ l) → (∀ p ∈ l, p.2.key = p.1) →
      l.foldl (fun m p => omInsert p.2.key p.2 m) acc = acc ++ l := by
  intro l
  induction l with
  | nil => intro acc _ _; simp
  | cons p rest ih =>
    intro acc hs hk
    have hpk : p.2.key = p.1 := hk p (List.mem_cons_self _ _)
    have hgt : ∀ q ∈ acc, VersionedKey.ltb q.1 p.1 = true := by
      intro q hq
      exact (List.pairwise_append.mp hs).2.2 q hq p (List.mem_cons_self _ _)
    have hstep : omInsert p.2.key p.2 acc = acc ++ [p] := by
      rw [hpk, omInsert_append_of_gt hgt]
    rw [List.foldl_cons, hstep]
    have hs' : SortedData ((acc ++ [p]) ++ rest) := by
      simpa [List.append_assoc] using hs
    rw [ih (acc ++ [p]) hs' (fun q hq => hk q (List.mem_cons_of_mem _ hq))]
    simp

theorem replay_map_self {l : Dataset T} (hs : SortedData l)
    (hk : ∀ p ∈ l, p.2.key = p.1) : replay (l.map (fun p => p.2)) = l := by
  rw [replay, List.foldl_map]
  exact foldl_omInsert_of_sorted l [] (by simpa using hs) hk

theorem getLast_eq_of_max {l : Dataset T} (hs : SortedData l) {p : VersionedKey × Doc T}
    (hmem : p ∈ l) (hmax : ∀ q ∈ l, VersionedKey.ltb p.1 q.1 = false) :
    l.getLast? = some p := by
  induction l with
  | nil => cases hmem
  | cons x rest ih =>
    cases rest with
    | nil =>
      rcases List.mem_cons.mp hmem with h | h
      · subst h; rfl
      · simp at h
    | cons y ys =>
      rcases hs with _ | ⟨hrel, htail⟩
      rcases List.mem_cons.mp hmem with h | h
      · subst h
        have h1 : VersionedKey.ltb p.1 y.1 = true := hrel y (List.mem_cons_self _ _)
        have h2 := hmax y (List.mem_cons_of_mem _ (List.mem_cons_self _ _))
        rw [h1] at h2
        exact absurd h2 (by simp)
      · rw [List.getLast?_cons_cons]
        exact ih htail h (fun q hq => hmax q (List.mem_cons_of_mem _ hq))

theorem get_eq_filterLast (db : Mudb T) (id : IndexKey) :
    db.get id =
      ((db.data.filter (fun p => decide (p.1.id = id))).getLast?).map (fun p => p.2) := by
  rw [Mudb.get, List.filter_filter]
  have hfe : ∀ a : VersionedKey × Doc T,
      (decide (a.1.id = id) && VersionedKey.leb (VersionedKey.new id) a.1) =
        decide (a.1.id = id) := by
    intro a
    cases hid : decide (a.1.id = id)
    · simp
    · have hp : a.1.id = id := of_decide_eq_true hid
      simp [VersionedKey.leb_of_id_eq hp]
  simp only [hfe]

/-- C8: when the dataset is sorted (the `OrdMap` invariant), `get id`
returns none when no map key has identity `id`, and otherwise the doc
stored under the highest-versioned map key with identity `id` (whatever
its flags or payload, tombstones included). -/
theorem C8_get_highest (db : Mudb T) (id : IndexKey) (hs : SortedData db.data) :
    ((∀ p ∈ db.data, p.1.id ≠ id) → db.get id = none) ∧
    (∀ p ∈ db.data, p.1.id = id →
      (∀ q ∈ db.data, q.1.id = id → q.1.ver ≤ p.1.ver) → db.get id = some p.2) := by
  constructor
  · intro h
    rw [get_eq_filterLast]
    have hnil : db.data.filter (fun p => decide (p.1.id = id)) = [] := by
      rw [List.filter_eq_nil_iff]
      intro p hp
      simp [h p hp]
    rw [hnil]; rfl
  · intro p hp hpid hmax
    rw [get_eq_filterLast]
    have hmem : p ∈ db.data.filter (fun p => decide (p.1.id = id)) :=
      List.mem_filter.mpr ⟨hp, by simp [hpid]⟩
    have hsf : SortedData (db.data.filter (fun p => decide (p.1.id = id))) :=
      hs.filter _
    have hmax' : ∀ q ∈ db.data.filter (fun p => decide (p.1.id = id)),
        VersionedKey.ltb p.1 q.1 = false := by
      intro q hq
      have hq' := List.mem_filter.mp hq
      have hqid : q.1.id = id := of_decide_eq_true hq'.2
      exact VersionedKey.ltb_eq_false_of_le (by rw [hpid, hqid]) (hmax q hq'.1 hqid)
    rw [getLast_eq_of_max hsf hmem hmax']
    rfl

theorem matchesCount_fst (q : QueryOp T) (x : T) :
    (q.matchesCount x).1 = q.matches x := by
  induction q with
  | Id f => rfl
  | Not q ih => simp [QueryOp.matchesCount, QueryOp.matches, ih]
  | And l r ihl ihr =>
    rw [QueryOp.matches, ← ihl, ← ihr]
    simp only [QueryOp.matchesCount]
    cases hl : (l.matchesCount x).1 <;> simp [hl]
  | Or l r ihl ihr =>
    rw [QueryOp.matches, ← ihl, ← ihr]
    simp only [QueryOp.matchesCount]
    cases hl : (l.matchesCount x).1 <;> simp [hl]

/-- C9: the algebra laws of `QueryOp::matches` — double negation is the
identity, `And`/`Or` are Boolean conjunction/disjunction — and the
short-circuit behaviour: when the left operand of `And` is false
(respectively of `Or`, true) the right operand is not evaluated, observed
through the leaf-evaluation count of the instrumented evaluator. -/
theorem C9_query_algebra (p q : QueryOp T) (x : T) :
    ((p.Not.Not).matches x = p.matches x) ∧
    ((QueryOp.And p q).matches x = (p.matches x && q.matches x)) ∧
    ((QueryOp.And p q).matches x = true ↔ (p.matches x = true ∧ q.matches x = true)) ∧
    ((QueryOp.Or p q).matches x = (p.matches x || q.matches x)) ∧
    ((QueryOp.Or p q).matches x = true ↔ (p.matches x = true ∨ q.matches x = true)) ∧
    ((p.matchesCount x).1 = p.matches x) ∧
    ((p.matchesCount x).1 = false →
      (QueryOp.And p q).matchesCount x = (false, (p.matchesCount x).2)) ∧
    ((p.matchesCount x).1 = true →
      (QueryOp.Or p q).matchesCount x = (true, (p.matchesCount x).2)) := by
  refine ⟨?_, rfl, ?_, rfl, ?_, matchesCount_fst p x, ?_, ?_⟩
  · simp [QueryOp.matches]
  · simp [QueryOp.matches]
  · simp [QueryOp.matches]
  · intro h
    simp only [QueryOp.matchesCount]
    simp [h]
  · intro h
    simp only [QueryOp.matchesCount]
    simp [h]

/-- C9 witness: with the leaf predicate `0 < n` over the payload `0`, the
left operand of `And` is false and the conjunction is evaluated with a
single leaf evaluation. -/
theorem C9_witness :
    (QueryOp.And (QueryOp.Id (fun n : Int => decide (0 < n)))
      (QueryOp.Id (fun _ : Int => true))).matchesCount 0 = (false, 1) := by
  rw [(C9_query_algebra (QueryOp.Id (fun n : Int => decide (0 < n)))
    (QueryOp.Id (fun _ : Int => true)) 0).2.2.2.2.2.2.1 (by decide)]
  rfl

/-- Behaviour of `Mudb::commit` in both buffer states. -/
theorem commit_spec (db : Mudb T) :
    (db.commit).2 = db.changed.length ∧
    (db.commit).1.log = db.log ++ db.changed ∧
    (db.commit).1.changed = [] ∧
    (db.commit).1.data = db.data ∧
    (db.commit).1.modified = (db.changed.isEmpty && db.modified) := by
  cases hc : db.changed with
  | nil => simp [Mudb.commit, hc]
  | cons d rest => simp [Mudb.commit, hc]

/-- C6 amended: `commit` returns the queued count, appends the buffer to
the log in enqueue order, leaves the buffer empty and the data untouched;
it clears `modified` only when the buffer was non-empty — with an empty
buffer the store is returned unchanged, `modified` included (so a store
dirtied by `delete` alone stays dirty across a commit). -/
theorem C6_commit_spec (db : Mudb T) :
    (db.commit).2 = db.changed.length ∧
    (db.commit).1.log = db.log ++ db.changed ∧
    (db.commit).1.changed = [] ∧
    (db.commit).1.data = db.data ∧
    (db.commit).1.modified = (db.changed.isEmpty && db.modified) :=
  commit_spec db

/-- Case analysis of `Mudb::insert`, phrased through `omLookup` and
`omRemove` rather than the extraction the source performs. -/
theorem insert_spec (db : Mudb T) (key : VersionedKey) (obj : T) :
    (match omLookup key db.data with
     | some d =>
        if key.ver < d.key.ver then
          (db.insert key obj).2 = Except.error staleMsg ∧
          (db.insert key obj).1.data = omRemove key db.data ∧
          (db.insert key obj).1.changed = db.changed ∧
          (db.insert key obj).1.modified = db.modified
        else
          (db.insert key obj).2 = Except.ok d.key.incr ∧
          (db.insert key obj).1.data =
            omInsert d.key.incr { d with key := d.key.incr, obj := some obj }
              (omRemove key db.data) ∧
          (db.insert key obj).1.changed =
            db.changed ++ [{ d with key := d.key.incr, obj := some obj }] ∧
          (db.insert key obj).1.modified = true
     | none =>
        (db.insert key obj).2 = Except.ok key.incr ∧
        (db.insert key obj).1.data =
          omInsert key.incr ⟨key.incr, [], some obj⟩ (omRemove key db.data) ∧
        (db.insert key obj).1.changed = db.changed ++ [⟨key.incr, [], some obj⟩] ∧
        (db.insert key obj).1.modified = true) := by
  cases hl : omLookup key db.data with
  | some d =>
    by_cases hv : key.ver < d.key.ver
    · simp [Mudb.insert, hl, hv]
    · simp [Mudb.insert, hl, hv]
  | none =>
    simp [Mudb.insert, hl, Doc.new]

theorem insert_log (db : Mudb T) (key : VersionedKey) (obj : T) :
    (db.insert key obj).1.log = db.log := by
  rw [Mudb.insert]
  split <;> rfl

/-- C2 amended: `insert(Some key, obj)` fails with the stale-version error
iff the entry found at the exact map key `key` carries an embedded key
whose version exceeds `key.ver` (which happens precisely at tombstones);
on failure that entry has already been removed from `data`.  Otherwise the
entry at the exact key (if any) is removed and a doc with payload `obj`,
the prior entry's flags (empty when there was none) and key `incr` of the
prior embedded key (or of `key` itself) is inserted under that new key,
appended to the change buffer, and its key returned; `modified` is set.
No comparison against the highest stored version of the identity is
made. -/
theorem C2_insert_contract (db : Mudb T) (key : VersionedKey) (obj : T) :
    (match omLookup key db.data with
     | some d =>
        if key.ver < d.key.ver then
          (db.insert key obj).2 = Except.error staleMsg ∧
          (db.insert key obj).1.data = omRemove key db.data ∧
          (db.insert key obj).1.changed = db.changed ∧
          (db.insert key obj).1.modified = db.modified
        else
          (db.insert key obj).2 = Except.ok d.key.incr ∧
          (db.insert key obj).1.data =
            omInsert d.key.incr { d with key := d.key.incr, obj := some obj }
              (omRemove key db.data) ∧
          (db.insert key obj).1.changed =
            db.changed ++ [{ d with key := d.key.incr, obj := some obj }] ∧
          (db.insert key obj).1.modified = true
     | none =>
        (db.insert key obj).2 = Except.ok key.incr ∧
        (db.insert key obj).1.data =
          omInsert key.incr ⟨key.incr, [], some obj⟩ (omRemove key db.data) ∧
        (db.insert key obj).1.changed = db.changed ++ [⟨key.incr, [], some obj⟩] ∧
        (db.insert key obj).1.modified = true) :=
  insert_spec db key obj

theorem omLookup_omInsert_self (k : VersionedKey) (v : Doc T) (l : Dataset T) :
    omLookup k (omInsert k v l) = some v := by
  induction l with
  | nil => simp [omInsert, omLookup]
  | cons y rest ih =>
    rcases y with ⟨k', v'⟩
    rw [omInsert]
    split
    · simp [omLookup]
    · split
      · simp [omLookup]
      · rename_i hnlt hne
        rw [omLookup, if_neg hne]
        exact ih

/-- Case analysis of `Mudb::delete`. -/
theorem delete_state (db : Mudb T) (vk : VersionedKey) :
    (omLookup vk db.data = none ∧ db.delete vk = (db, none)) ∨
    (∃ d, omLookup vk db.data = some d ∧
      db.delete vk =
        ({ db with data := omInsert vk ⟨d.key.incr, flagInsert Flag.Deleted d.flags, none⟩ (omRemove vk db.data), modified := true }, d.obj)) := by
  cases hl : omLookup vk db.data with
  | none => exact Or.inl ⟨rfl, by simp [Mudb.delete, hl]⟩
  | some d => exact Or.inr ⟨d, rfl, by simp [Mudb.delete, hl]⟩

/-- Case analysis of `Mudb::update`. -/
theorem update_state (db : Mudb T) (k : VersionedKey) (f : T → T) :
    (db.update k f = (db, none)) ∨
    (∃ d obj, db.exact k = some d ∧ d.obj = some obj ∧
      db.update k f =
        ({ (db.insert d.key (f obj)).1 with
            changed := (db.insert d.key (f obj)).1.changed ++ [d] },
         some (db.insert d.key (f obj)).2)) := by
  rw [Mudb.update]
  cases he : db.exact k with
  | none => exact Or.inl (by simp [Doc.new])
  | some d =>
    cases ho : d.obj with
    | none => exact Or.inl (by simp [ho])
    | some obj => exact Or.inr ⟨d, obj, rfl, ho, by simp [ho]⟩

/-- C10 amended: when `delete(vk)` finds a record at the exact key `vk`,
it returns that record's payload (`None` for a tombstone) and stores,
under the unchanged map key `vk`, a tombstone whose embedded key is the
`incr` of the found record's embedded key — `incr(vk)` whenever the found
record is live, so map key and embedded key differ by one version until a
compaction and reopen re-keys the record. -/
theorem C10_delete_tombstone (db : Mudb T) (vk : VersionedKey) (d : Doc T)
    (h : omLookup vk db.data = some d) :
    (db.delete vk).2 = d.obj ∧
    omLookup vk (db.delete vk).1.data =
      some ⟨d.key.incr, flagInsert Flag.Deleted d.flags, none⟩ ∧
    (db.delete vk).1.modified = true := by
  rcases delete_state db vk with ⟨hn, _⟩ | ⟨d', hl, heq⟩
  · rw [h] at hn; cases hn
  · rw [h] at hl
    cases hl
    rw [heq]
    exact ⟨rfl, omLookup_omInsert_self _ _ _, rfl⟩

/-- Mutation operations of the store facade: `insert` with an explicit key
(a fresh-ULID insert is `ins` with a fresh string identity at version 0),
`update`, and `delete`. -/
inductive MOp (T : Type) : Type where
  | ins (key : VersionedKey) (obj : T)
  | upd (key : VersionedKey) (f : T → T)
  | del (key : VersionedKey)

/-- Apply one mutation to the store, keeping the post-state. -/
def Mudb.applyOp (db : Mudb T) : MOp T → Mudb T
  | .ins k o => (db.insert k o).1
  | .upd k f => (db.update k f).1
  | .del k => (db.delete k).1

/-- Run a sequence of mutations left to right. -/
def Mudb.runOps (db : Mudb T) : List (MOp T) → Mudb T
  | [] => db
  | op :: rest => (db.applyOp op).runOps rest

/-- True when the sequence contains no `delete`. -/
def noDelete : List (MOp T) → Bool
  | [] => true
  | .del _ :: _ => false
  | _ :: rest => noDelete rest

/-- Invariant backing replay equivalence: the dataset is sorted, every
doc's embedded key equals its map key, and a store never yet modified is
still empty with an empty log. -/
def ReplayInv (db : Mudb T) : Prop :=
  SortedData db.data ∧ (∀ p ∈ db.data, p.2.key = p.1) ∧
  (db.modified = false → db.data = [] ∧ db.log = [])

theorem insert_found_stale {db : Mudb T} {k : VersionedKey} (o : T) {d : Doc T}
    (hl : omLookup k db.data = some d) (hv : k.ver < d.key.ver) :
    db.insert k o = ({ db with data := omRemove k db.data }, Except.error staleMsg) := by
  simp [Mudb.insert, hl, hv]

theorem insert_found_ok {db : Mudb T} {k : VersionedKey} (o : T) {d : Doc T}
    (hl : omLookup k db.data = some d) (hv : ¬ k.ver < d.key.ver) :
    db.insert k o =
      ({ db with data := omInsert d.key.incr { d with key := d.key.incr, obj := some o } (omRemove k db.data), changed := db.changed ++ [{ d with key := d.key.incr, obj := some o }], modified := true }, Except.ok d.key.incr) := by
  simp [Mudb.insert, hl, hv]

theorem insert_lookup_none {db : Mudb T} {k : VersionedKey} (o : T)
    (hl : omLookup k db.data = none) :
    db.insert k o =
      ({ db with data := omInsert k.incr ⟨k.incr, [], some o⟩ (omRemove k db.data), changed := db.changed ++ [⟨k.incr, [], some o⟩], modified := true }, Except.ok k.incr) := by
  simp [Mudb.insert, hl, Doc.new]

theorem insert_replayInv {db : Mudb T} (h : ReplayInv db) (k : VersionedKey) (o : T) :
    ReplayInv ((db.insert k o).1) := by
  obtain ⟨hs, hk, hm⟩ := h
  cases hl : omLookup k db.data with
  | some d =>
    by_cases hv : k.ver < d.key.ver
    · rw [insert_found_stale o hl hv]
      refine ⟨sortedData_omRemove hs, fun p hp => hk p (mem_omRemove hp), ?_⟩
      intro hf
      obtain ⟨h1, h2⟩ := hm hf
      rw [h1] at hl
      simp [omLookup] at hl
    · rw [insert_found_ok o hl hv]
      refine ⟨?_, ?_, ?_⟩
      · exact sortedData_omInsert _ _ (sortedData_omRemove hs)
      · intro p hp
        rcases mem_omInsert hp with hp | hp
        · subst hp; rfl
        · exact hk p (mem_omRemove hp)
      · simp
  | none =>
    rw [insert_lookup_none o hl]
    refine ⟨?_, ?_, ?_⟩
    · exact sortedData_omInsert _ _ (sortedData_omRemove hs)
    · intro p hp
      rcases mem_omInsert hp with hp | hp
      · subst hp; rfl
      · exact hk p (mem_omRemove hp)
    · simp

theorem update_replayInv {db : Mudb T} (h : ReplayInv db) (k : VersionedKey) (f : T → T) :
    ReplayInv ((db.update k f).1) := by
  rcases update_state db k f with heq | ⟨d, obj, he, ho, heq⟩
  · rw [heq]; exact h
  · rw [heq]; exact insert_replayInv h d.key (f obj)

theorem runOps_replayInv :
    ∀ (ops : List (MOp T)) (db : Mudb T), ReplayInv db → noDelete ops = true →
      ReplayInv (db.runOps ops) := by
  intro ops
  induction ops with
  | nil => intro db h _; exact h
  | cons op rest ih =>
    intro db h hnd
    rw [Mudb.runOps]
    cases op with
    | ins k o => exact ih _ (insert_replayInv h k o) (by simpa [noDelete] using hnd)
    | upd k f => exact ih _ (update_replayInv h k f) (by simpa [noDelete] using hnd)
    | del k => simp [noDelete] at hnd

theorem replayInv_empty : ReplayInv (Mudb.openLog ([] : List (Doc T))) := by
  refine ⟨?_, ?_, ?_⟩ <;> simp [Mudb.openLog, replay, SortedData]

/-- C1 amended: starting from a fresh store over an empty log, after any
sequence of `insert` and `update` mutations followed by a `compact`,
opening a fresh store over the resulting log file yields a `data` map
equal to the in-memory one.  (As the claim was stated — sequences merely
ending in `commit`, `delete` allowed — it fails; see the
counterexample.) -/
theorem C1_replay_equivalence (ops : List (MOp T)) (hnd : noDelete ops = true) :
    (Mudb.openLog (((Mudb.openLog ([] : List (Doc T))).runOps ops).compact).log).data =
      (((Mudb.openLog ([] : List (Doc T))).runOps ops).compact).data := by
  obtain ⟨hs, hk, hm⟩ := runOps_replayInv ops _ replayInv_empty hnd
  rw [Mudb.compact]
  by_cases hmod : ((Mudb.openLog ([] : List (Doc T))).runOps ops).modified = true
  · rw [if_pos hmod]
    exact replay_map_self hs hk
  · rw [if_neg hmod]
    have hf : ((Mudb.openLog ([] : List (Doc T))).runOps ops).modified = false := by
      simpa using hmod
    obtain ⟨h1, h2⟩ := hm hf
    rw [h2, h1]
    rfl

/-- The empty store over an empty log, at payload type `Int`. -/
def emptyDb : Mudb Int := Mudb.openLog []

/-- Two inserts on the same identity followed by a commit: the log keeps
both versions while the map keeps only the latest. -/
def cx1db : Mudb Int :=
  (((emptyDb.insert ⟨.Num 1, 0⟩ 5).1.insert ⟨.Num 1, 1⟩ 6).1.commit).1

/-- An insert, a delete and a compact: the tombstone is written under its
embedded (incremented) key, so replay re-keys it. -/
def cx1db' : Mudb Int :=
  ((emptyDb.insert ⟨.Num 1, 0⟩ 5).1.delete ⟨.Num 1, 1⟩).1.compact

/-- C1 counterexample: a sequence of mutations ending in a successful
commit after which reopening the log does not reproduce the in-memory
map — two inserts on one identity leave both versions in the log; and
even compaction fails to restore equality once a delete produced a
tombstone whose embedded key differs from its map key. -/
theorem C1_counterexample :
    (Mudb.openLog cx1db.log).data ≠ cx1db.data ∧
    (Mudb.openLog cx1db'.log).data ≠ cx1db'.data := by
  decide

/-- Operation sequence for the C1 witness: an insert then an update. -/
def c1ops : List (MOp Int) :=
  [.ins ⟨.Num 1, 0⟩ 5, .upd ⟨.Num 1, 1⟩ (fun n => n + 1)]

/-- C1 witness: the amended replay equivalence evaluated on a concrete
insert-update-compact run. -/
theorem C1_witness :
    noDelete c1ops = true ∧
    (Mudb.openLog (((Mudb.openLog ([] : List (Doc Int))).runOps c1ops).compact).log).data =
      (((Mudb.openLog ([] : List (Doc Int))).runOps c1ops).compact).data :=
  ⟨by decide, C1_replay_equivalence c1ops (by decide)⟩

/-- An insert key is benign when it is either present in the map exactly,
or its identity has no entry at all (as with a freshly generated ULID). -/
def insKeyOk (db : Mudb T) (k : VersionedKey) : Bool :=
  (omLookup k db.data).isSome || db.data.all (fun p => decide (p.1.id ≠ k.id))

/-- A mutation sequence is valid when every insert key is benign in the
state where it executes; updates and deletes are unrestricted. -/
def validOps (db : Mudb T) : List (MOp T) → Bool
  | [] => true
  | .ins k o :: rest => insKeyOk db k && validOps (db.applyOp (.ins k o)) rest
  | op :: rest => validOps (db.applyOp op) rest

/-- Invariant backing the single-record-per-identity property: identities
of map keys are pairwise distinct, every doc's embedded identity matches
its map key's, and every doc carrying a payload sits at its own key. -/
def UniqueIds (db : Mudb T) : Prop :=
  db.data.Pairwise (fun a b => a.1.id ≠ b.1.id) ∧
  (∀ p ∈ db.data, p.2.key.id = p.1.id) ∧
  (∀ p ∈ db.data, p.2.obj ≠ none → p.2.key = p.1)

theorem pairwiseIds_omInsert {l : Dataset T} {k : VersionedKey} {v : Doc T}
    (hp : l.Pairwise (fun a b => a.1.id ≠ b.1.id))
    (hfresh : ∀ p ∈ l, p.1.id ≠ k.id) :
    (omInsert k v l).Pairwise (fun a b => a.1.id ≠ b.1.id) := by
  induction l with
  | nil => simp [omInsert]
  | cons y rest ih =>
    rcases y with ⟨k', v'⟩
    rcases hp with _ | ⟨hrel, htail⟩
    rw [omInsert]
    split
    · refine List.Pairwise.cons ?_ (List.Pairwise.cons hrel htail)
      intro b hb
      rcases List.mem_cons.mp hb with hb | hb
      · subst hb
        exact (hfresh _ (List.mem_cons_self _ _)).symm
      · exact (hfresh _ (List.mem_cons_of_mem _ hb)).symm
    · split
      · rename_i heq
        exfalso
        exact hfresh _ (List.mem_cons_self _ _) (by rw [heq])
      · refine List.Pairwise.cons ?_
          (ih htail (fun p hp' => hfresh p (List.mem_cons_of_mem _ hp')))
        intro b hb
        rcases mem_omInsert hb with hb | hb
        · subst hb
          exact hfresh _ (List.mem_cons_self _ _)
        · exact hrel b hb

theorem omRemove_ids_ne {l : Dataset T} {k : VersionedKey} {d : Doc T}
    (hp : l.Pairwise (fun a b => a.1.id ≠ b.1.id))
    (hl : omLookup k l = some d) :
    ∀ q ∈ omRemove k l, q.1.id ≠ k.id := by
  induction l with
  | nil => simp [omLookup] at hl
  | cons y rest ih =>
    rcases y with ⟨k', v'⟩
    rcases hp with _ | ⟨hrel, htail⟩
    rw [omLookup] at hl
    by_cases heq : k = k'
    · rw [if_pos heq] at hl
      rw [omRemove, if_pos heq]
      intro q hq hc
      have hq' : q.1.id = k'.id := by rw [hc, heq]
      exact hrel q hq hq'.symm
    · rw [if_neg heq] at hl
      rw [omRemove, if_neg heq]
      intro q hq
      rcases List.mem_cons.mp hq with hq | hq
      · subst hq
        exact hrel _ (omLookup_mem hl)
      · exact ih htail hl q hq

theorem insert_uniqueIds {db : Mudb T} (h : UniqueIds db) {k : VersionedKey} (o : T)
    (hok : insKeyOk db k = true) : UniqueIds ((db.insert k o).1) := by
  obtain ⟨hp, hid, hlive⟩ := h
  cases hl : omLookup k db.data with
  | some d =>
    by_cases hv : k.ver < d.key.ver
    · rw [insert_found_stale o hl hv]
      exact ⟨hp.sublist (omRemove_sublist _ _),
        fun p hp' => hid p (mem_omRemove hp'),
        fun p hp' => hlive p (mem_omRemove hp')⟩
    · rw [insert_found_ok o hl hv]
      have hdkid : d.key.id = k.id := hid (k, d) (omLookup_mem hl)
      have hincr : d.key.incr.id = k.id := hdkid
      have hfresh : ∀ q ∈ omRemove k db.data, q.1.id ≠ d.key.incr.id := by
        intro q hq
        rw [hincr]
        exact omRemove_ids_ne hp hl q hq
      refine ⟨?_, ?_, ?_⟩
      · exact pairwiseIds_omInsert (hp.sublist (omRemove_sublist _ _)) hfresh
      · intro p hp'
        rcases mem_omInsert hp' with hp' | hp'
        · subst hp'; rfl
        · exact hid p (mem_omRemove hp')
      · intro p hp' hobj
        rcases mem_omInsert hp' with hp' | hp'
        · subst hp'; rfl
        · exact hlive p (mem_omRemove hp') hobj
  | none =>
    rw [insert_lookup_none o hl]
    have hall : ∀ p ∈ db.data, p.1.id ≠ k.id := by
      have hfalse : (omLookup k db.data).isSome = false := by rw [hl]; rfl
      rw [insKeyOk, hfalse, Bool.false_or] at hok
      intro p hp'
      exact of_decide_eq_true (List.all_eq_true.mp hok p hp')
    have hfresh : ∀ q ∈ omRemove k db.data, q.1.id ≠ k.incr.id := by
      intro q hq
      exact hall q (mem_omRemove hq)
    refine ⟨?_, ?_, ?_⟩
    · exact pairwiseIds_omInsert (hp.sublist (omRemove_sublist _ _)) hfresh
    · intro p hp'
      rcases mem_omInsert hp' with hp' | hp'
      · subst hp'; rfl
      · exact hid p (mem_omRemove hp')
    · intro p hp' hobj
      rcases mem_omInsert hp' with hp' | hp'
      · subst hp'; rfl
      · exact hlive p (mem_omRemove hp') hobj

theorem delete_uniqueIds {db : Mudb T} (h : UniqueIds db) (vk : VersionedKey) :
    UniqueIds ((db.delete vk).1) := by
  obtain ⟨hp, hid, hlive⟩ := h
  rcases delete_state db vk with ⟨-, heq⟩ | ⟨d, hl, heq⟩
  · rw [heq]; exact ⟨hp, hid, hlive⟩
  · rw [heq]
    have hdkid : d.key.id = vk.id := hid (vk, d) (omLookup_mem hl)
    have hfresh : ∀ q ∈ omRemove vk db.data, q.1.id ≠ vk.id := omRemove_ids_ne hp hl
    refine ⟨?_, ?_, ?_⟩
    · exact pairwiseIds_omInsert (hp.sublist (omRemove_sublist _ _)) hfresh
    · intro p hp'
      rcases mem_omInsert hp' with hp' | hp'
      · subst hp'; exact hdkid
      · exact hid p (mem_omRemove hp')
    · intro p hp' hobj
      rcases mem_omInsert hp' with hp' | hp'
      · subst hp'; simp at hobj
      · exact hlive p (mem_omRemove hp') hobj

theorem update_uniqueIds {db : Mudb T} (h : UniqueIds db) (k : VersionedKey) (f : T → T) :
    UniqueIds ((db.update k f).1) := by
  rcases update_state db k f with heq | ⟨d, obj, he, ho, heq⟩
  · rw [heq]; exact h
  · rw [heq]
    have hl : omLookup k db.data = some d := he
    have hdk : d.key = k := h.2.2 (k, d) (omLookup_mem hl) (by simp [ho])
    have hok : insKeyOk db d.key = true := by
      rw [insKeyOk, hdk, hl]
      rfl
    exact insert_uniqueIds h (f obj) hok

theorem runOps_uniqueIds :
    ∀ (ops : List (MOp T)) (db : Mudb T), UniqueIds db → validOps db ops = true →
      UniqueIds (db.runOps ops) := by
  intro ops
  induction ops with
  | nil => intro db h _; exact h
  | cons op rest ih =>
    intro db h hv
    rw [Mudb.runOps]
    cases op with
    | ins k o =>
      simp only [validOps, Bool.and_eq_true] at hv
      exact ih _ (insert_uniqueIds h o hv.1) hv.2
    | upd k f =>
      simp only [validOps] at hv
      exact ih _ (update_uniqueIds h k f) hv
    | del k =>
      simp only [validOps] at hv
      exact ih _ (delete_uniqueIds h k) hv

theorem uniqueIds_empty : UniqueIds (Mudb.openLog ([] : List (Doc T))) := by
  refine ⟨?_, ?_, ?_⟩ <;> simp [Mudb.openLog, replay]

/-- C3 amended: starting from a fresh store over an empty log, after any
sequence of insert/update/delete mutations in which every insert key is
either an exact key currently present in the map or carries an identity
with no entry at all (the fresh-ULID case), the data map holds at most one
entry per identity.  (For an arbitrary insert key the claim fails, and
after a delete the surviving entry's map key is one version below the
highest embedded version assigned — see the counterexample.) -/
theorem C3_unique_identities (ops : List (MOp T))
    (hv : validOps (Mudb.openLog ([] : List (Doc T))) ops = true) :
    ((Mudb.openLog ([] : List (Doc T))).runOps ops).data.Pairwise
      (fun a b => a.1.id ≠ b.1.id) :=
  (runOps_uniqueIds ops _ uniqueIds_empty hv).1

/-- C3 counterexample: inserting with a skipped-ahead version key leaves
two live entries with the same identity; and after a delete the single
entry for the identity sits at map key version 1 while the highest version
assigned (the tombstone's embedded key) is 2, so the surviving map entry
is not keyed by the highest version ever assigned. -/
theorem C3_counterexample :
    ¬ ((emptyDb.insert ⟨.Num 1, 0⟩ 5).1.insert ⟨.Num 1, 9⟩ 6).1.data.Pairwise
      (fun a b => a.1.id ≠ b.1.id) ∧
    (omLookup ⟨.Num 1, 1⟩ ((emptyDb.insert ⟨.Num 1, 0⟩ 5).1.delete ⟨.Num 1, 1⟩).1.data).map
      (fun d => d.key) = some ⟨.Num 1, 2⟩ ∧
    omLookup ⟨.Num 1, 2⟩ ((emptyDb.insert ⟨.Num 1, 0⟩ 5).1.delete ⟨.Num 1, 1⟩).1.data = none := by
  decide

/-- Operation sequence for the C3 witness: insert, update, delete, then a
fresh-identity insert. -/
def c3ops : List (MOp Int) :=
  [.ins ⟨.Num 1, 0⟩ 5, .upd ⟨.Num 1, 1⟩ (fun n => n + 1), .del ⟨.Num 1, 2⟩,
   .ins ⟨.Num 2, 0⟩ 7]

/-- C3 witness: the amended invariant evaluated on a concrete valid
sequence exercising all three mutations. -/
theorem C3_witness :
    validOps (Mudb.openLog ([] : List (Doc Int))) c3ops = true ∧
    ((Mudb.openLog ([] : List (Doc Int))).runOps c3ops).data.Pairwise
      (fun a b => a.1.id ≠ b.1.id) :=
  ⟨by decide, C3_unique_identities c3ops (by decide)⟩

theorem insert_changed_ok {db : Mudb T} {k : VersionedKey} {o : T}
    (h : (db.insert k o).2.isOk = true) :
    ∃ d, (db.insert k o).1.changed = db.changed ++ [d] := by
  cases hl : omLookup k db.data with
  | some d =>
    by_cases hv : k.ver < d.key.ver
    · rw [insert_found_stale o hl hv] at h
      simp [Except.isOk, Except.toBool] at h
    · rw [insert_found_ok o hl hv]
      exact ⟨_, rfl⟩
  | none =>
    rw [insert_lookup_none o hl]
    exact ⟨_, rfl⟩

/-- C4 amended: a successful `insert` appends exactly one doc (the new
one) to the change buffer; a successful `update` appends two — the new
doc and then the prior doc; `delete` appends nothing at all, so the
tombstone it stores in `data` is not written by the next `commit` (only
`compact` persists it): that commit writes exactly the records already
buffered before the delete. -/
theorem C4_change_buffer (db : Mudb T) (k vk : VersionedKey) (o : T) (f : T → T) :
    ((db.insert k o).2.isOk = true →
      ∃ d, (db.insert k o).1.changed = db.changed ++ [d]) ∧
    (∀ r, (db.update k f).2 = some r → r.isOk = true →
      ∃ dnew dold, (db.update k f).1.changed = db.changed ++ [dnew, dold]) ∧
    ((db.delete vk).1.changed = db.changed) ∧
    (((db.delete vk).1.commit).2 = db.changed.length ∧
      ((db.delete vk).1.commit).1.log = db.log ++ db.changed) := by
  have hch : (db.delete vk).1.changed = db.changed := by
    rcases delete_state db vk with ⟨-, heq⟩ | ⟨d, -, heq⟩ <;> rw [heq]
  have hlog : (db.delete vk).1.log = db.log := by
    rcases delete_state db vk with ⟨-, heq⟩ | ⟨d, -, heq⟩ <;> rw [heq]
  refine ⟨fun h => insert_changed_ok h, ?_, hch, ?_⟩
  · intro r hr hok
    rcases update_state db k f with heq | ⟨d, obj, he, ho, heq⟩
    · rw [heq] at hr; cases hr
    · rw [heq] at hr
      have hr' : (db.insert d.key (f obj)).2 = r := Option.some.inj hr
      have hok' : (db.insert d.key (f obj)).2.isOk = true := by rw [hr']; exact hok
      obtain ⟨dnew, hchi⟩ := insert_changed_ok hok'
      refine ⟨dnew, d, ?_⟩
      rw [heq]
      show (db.insert d.key (f obj)).1.changed ++ [d] = db.changed ++ [dnew, d]
      rw [hchi]
      simp
  · have hc := commit_spec ((db.delete vk).1)
    constructor
    · rw [hc.1, hch]
    · rw [hc.2.1, hch, hlog]

/-- C4 counterexample: after a committed insert, a delete stores a
tombstone in `data` yet leaves the change buffer empty, and the next
commit writes 0 records and leaves the log unchanged — the tombstone
never reaches the log through commit; moreover an update grows the buffer
by two records, not one. -/
theorem C4_counterexample :
    (((emptyDb.insert ⟨.Num 1, 0⟩ 5).1.commit).1.delete ⟨.Num 1, 1⟩).1.changed = [] ∧
    (omLookup ⟨.Num 1, 1⟩
      (((emptyDb.insert ⟨.Num 1, 0⟩ 5).1.commit).1.delete ⟨.Num 1, 1⟩).1.data).map
      (fun d => d.flags) = some [Flag.Deleted] ∧
    ((((emptyDb.insert ⟨.Num 1, 0⟩ 5).1.commit).1.delete ⟨.Num 1, 1⟩).1.commit).2 = 0 ∧
    ((((emptyDb.insert ⟨.Num 1, 0⟩ 5).1.commit).1.delete ⟨.Num 1, 1⟩).1.commit).1.log =
      (((emptyDb.insert ⟨.Num 1, 0⟩ 5).1.commit).1.delete ⟨.Num 1, 1⟩).1.log ∧
    ((emptyDb.insert ⟨.Num 1, 0⟩ 5).1.update ⟨.Num 1, 1⟩ (fun n => n + 1)).1.changed.length
      = (emptyDb.insert ⟨.Num 1, 0⟩ 5).1.changed.length + 2 := by
  decide

/-- C4 witness: the amended buffer discipline evaluated concretely — a
successful insert appends one doc, a successful update appends two. -/
theorem C4_witness :
    ((emptyDb.insert ⟨.Num 1, 0⟩ 5).2.isOk = true) ∧
    (∃ d, (emptyDb.insert ⟨.Num 1, 0⟩ 5).1.changed = emptyDb.changed ++ [d]) ∧
    (∃ dnew dold,
      ((emptyDb.insert ⟨.Num 1, 0⟩ 5).1.update ⟨.Num 1, 1⟩ (fun n => n + 1)).1.changed =
        (emptyDb.insert ⟨.Num 1, 0⟩ 5).1.changed ++ [dnew, dold]) :=
  ⟨by decide,
   (C4_change_buffer emptyDb ⟨.Num 1, 0⟩ ⟨.Num 1, 0⟩ 5 (fun n => n + 1)).1 (by decide),
   (C4_change_buffer (emptyDb.insert ⟨.Num 1, 0⟩ 5).1 ⟨.Num 1, 1⟩ ⟨.Num 1, 1⟩ 0
      (fun n => n + 1)).2.1 (Except.ok ⟨.Num 1, 2⟩) (by decide) (by decide)⟩

/-- C6 counterexample: a store dirtied only by a delete has an empty
change buffer; `commit` then returns 0 but the store is NOT clean
afterwards — `modified` remains true. -/
theorem C6_counterexample :
    ((((emptyDb.insert ⟨.Num 1, 0⟩ 5).1.commit).1.delete ⟨.Num 1, 1⟩).1.commit).2 = 0 ∧
    ((((emptyDb.insert ⟨.Num 1, 0⟩ 5).1.commit).1.delete ⟨.Num 1, 1⟩).1.commit).1.modified
      = true := by
  decide

/-- A reopened log holding a single tombstone record. -/
def c2tombLog : List (Doc Int) := [⟨⟨.Num 1, 1⟩, [Flag.Deleted], none⟩]

/-- C2 counterexample: the stored version for identity `Num 1` is 1, the
caller supplies stale version 0, yet the insert succeeds (overwriting
version 1) instead of failing with StaleVersion; and after reopening a log
holding a tombstone, inserting at the tombstone's own key yields a doc
whose flag set is not empty — the `Deleted` flag is carried over. -/
theorem C2_counterexample :
    (((emptyDb.insert ⟨.Num 1, 0⟩ 5).1.get (.Num 1)).map (fun d => d.key.ver) = some 1) ∧
    ((emptyDb.insert ⟨.Num 1, 0⟩ 5).1.insert ⟨.Num 1, 0⟩ 7).2 = Except.ok ⟨.Num 1, 1⟩ ∧
    ((Mudb.openLog c2tombLog).insert ⟨.Num 1, 1⟩ 7).1.changed =
      [⟨⟨.Num 1, 2⟩, [Flag.Deleted], some 7⟩] := by
  decide

/-- A store with two distinct identities, for the C8 witness. -/
def c8db : Mudb Int := ((emptyDb.insert ⟨.Num 1, 0⟩ 5).1.insert ⟨.Num 2, 0⟩ 7).1

/-- C8 witness: `get` on a concrete sorted store returns the doc under the
highest-versioned key of the requested identity. -/
theorem C8_witness :
    SortedData c8db.data ∧ c8db.get (.Num 1) = some ⟨⟨.Num 1, 1⟩, [], some 5⟩ :=
  ⟨by decide, (C8_get_highest c8db (.Num 1) (by decide)).2
    (⟨.Num 1, 1⟩, ⟨⟨.Num 1, 1⟩, [], some 5⟩) (by decide) (by decide) (by decide)⟩

/-- C10 witness: deleting a live record returns its payload and stores the
tombstone under the unchanged map key with the embedded key bumped by
one. -/
theorem C10_witness :
    omLookup ⟨.Num 1, 1⟩ (emptyDb.insert ⟨.Num 1, 0⟩ 5).1.data =
      some ⟨⟨.Num 1, 1⟩, [], some 5⟩ ∧
    ((emptyDb.insert ⟨.Num 1, 0⟩ 5).1.delete ⟨.Num 1, 1⟩).2 = some 5 ∧
    omLookup ⟨.Num 1, 1⟩ ((emptyDb.insert ⟨.Num 1, 0⟩ 5).1.delete ⟨.Num 1, 1⟩).1.data =
      some ⟨⟨.Num 1, 2⟩, [Flag.Deleted], none⟩ :=
  ⟨by decide,
   (C10_delete_tombstone (emptyDb.insert ⟨.Num 1, 0⟩ 5).1 ⟨.Num 1, 1⟩
      ⟨⟨.Num 1, 1⟩, [], some 5⟩ (by decide)).1,
   (C10_delete_tombstone (emptyDb.insert ⟨.Num 1, 0⟩ 5).1 ⟨.Num 1, 1⟩
      ⟨⟨.Num 1, 1⟩, [], some 5⟩ (by decide)).2.1⟩

/-- A store holding one tombstone produced by a first delete. -/
def c10db : Mudb Int := ((emptyDb.insert ⟨.Num 1, 0⟩ 5).1.delete ⟨.Num 1, 1⟩).1

/-- C10 counterexample: deleting the same key a second time finds the
tombstone, whose embedded key already differs from the map key, and stores
a tombstone whose embedded key is two versions above the map key — not
`incr(vk)` as claimed. -/
theorem C10_counterexample :
    (omLookup ⟨.Num 1, 1⟩ (c10db.delete ⟨.Num 1, 1⟩).1.data).map (fun d => d.key) =
      some ⟨.Num 1, 3⟩ ∧
    (⟨.Num 1, 3⟩ : VersionedKey) ≠ (⟨.Num 1, 1⟩ : VersionedKey).incr := by
  decide

/-- Indexer used in the view examples: a payload indexes its own value. -/
def vIdx : Int → List IndexKey := fun n => [.Num n]

/-- Register a view, insert a payload indexing term 5, build views, update
the payload to index term 6 instead, and build views again. -/
def c5db : Mudb Int :=
  (((((emptyDb.addView "v" vIdx).insert ⟨.Num 1, 0⟩ 5).1.buildViews).update
      ⟨.Num 1, 1⟩ (fun _ => 6)).1).buildViews

/-- C5: evaluation of the code at the failing input.  After the second
`build_views` the view still answers term 5 with identity `Num 1`, but
`get` resolves that identity to the live payload 6, which indexes only
term 6 and is no tombstone — the converse direction of view consistency
fails (because `View::build` stores the previous snapshot, removals are
never applied).  `find_by_view` accordingly returns payload 6 under
term 5. -/
theorem C5_view_consistency_bug :
    ((vwGet "v" c5db.views).map (fun v => v.query (.Num 5))) = some [.Num 1] ∧
    c5db.get (.Num 1) = some ⟨⟨.Num 1, 2⟩, [], some 6⟩ ∧
    vIdx 6 = [.Num 6] ∧
    ¬ (IndexKey.Num 5 ∈ vIdx 6) ∧
    c5db.findByView "v" (.Num 5) = [6] := by
  decide

/-- A one-record dataset for the C7 evaluation. -/
def c7data : Dataset Int := [(⟨.Num 1, 1⟩, ⟨⟨.Num 1, 1⟩, [], some 5⟩)]

/-- C7: evaluation of the code at the failing input.  `View::build` stores
`Some(snapshot.clone().clone())` — the PREVIOUS snapshot (empty on a first
build) — so after `build(current)` the snapshot field does not equal the
dataset that was passed in. -/
theorem C7_build_snapshot_bug :
    ((View.new vIdx).build c7data).snapshot = some [] ∧
    ((View.new vIdx).build c7data).snapshot ≠ some c7data := by
  decide

end MudbSpec
